import Mathlib

/-!
Verification of the receipt-processing core of the "CSA Final Project"
repository (`logic.py` and the earlier variant `test.py`): the line
classifier `is_item_line`, the item normalizer `clean_extracted_items`
(both variants), and the deposit calculator `calculate_pfand`.

Strings are shallowly embedded as lists of Unicode code points
(`List Nat`), matching Python's view of `str` as a sequence of code
points.  The character-class predicates (`\d`, `\w`, `\s`, `str.isalpha`,
`str.lower`, `str.upper`, `str.strip`) are modelled on the ASCII range;
Python's versions are Unicode-aware, but every vocabulary word and every
input exercised by the program and its specification is ASCII apart from
the euro sign U+20AC, which is a non-word, non-space, non-alphabetic,
non-digit character in both semantics.  Python float literals `0.25` and
`0.6` are exactly representable in binary floating point and all the
arithmetic the program performs on them is exact at the scales involved,
so the numeric parts are embedded over `ℚ` (see `round2`).
-/

namespace Receipt

/-- A Python string: its list of Unicode code points. -/
abbrev Str := List Nat

/-- Code points of a Lean string literal, used to write concrete inputs. -/
def ofStr (s : String) : Str := s.toList.map Char.toNat

/-- Python regex `\d` (ASCII range): decimal digit `0`–`9`. -/
def isDigitB (c : Nat) : Bool := decide (48 ≤ c ∧ c ≤ 57)

/-- Python `str.isalpha` (ASCII range): `A`–`Z` or `a`–`z`. -/
def isAlphaB (c : Nat) : Bool := decide ((65 ≤ c ∧ c ≤ 90) ∨ (97 ≤ c ∧ c ≤ 122))

/-- Python regex `\s` / `str.strip` whitespace (ASCII range):
space, tab, LF, VT, FF, CR. -/
def isSpaceB (c : Nat) : Bool :=
  decide (c = 32 ∨ c = 9 ∨ c = 10 ∨ c = 11 ∨ c = 12 ∨ c = 13)

/-- Python regex `\w` (ASCII range): letter, digit or underscore. -/
def isWordB (c : Nat) : Bool := isAlphaB c || isDigitB c || decide (c = 95)

/-- Python `str.lower` on one code point (ASCII range). -/
def toLowerB (c : Nat) : Nat := if 65 ≤ c ∧ c ≤ 90 then c + 32 else c

/-- Python `str.upper` on one code point (ASCII range). -/
def toUpperB (c : Nat) : Nat := if 97 ≤ c ∧ c ≤ 122 then c - 32 else c

/-- Python `text.lower()`. -/
def lowerStr (s : Str) : Str := s.map toLowerB

/-- Python `text.strip()`: drop leading and trailing whitespace. -/
def strip (s : Str) : Str :=
  ((s.dropWhile isSpaceB).reverse.dropWhile isSpaceB).reverse

/-- Python `text.capitalize()`: first code point uppercased, all
remaining code points lowercased. -/
def capitalize : Str → Str
  | [] => []
  | c :: t => toUpperB c :: t.map toLowerB

/-- Python `needle in hay` on strings: substring containment. -/
def strIn (needle : Str) : Str → Bool
  | [] => needle.isEmpty
  | c :: t => needle.isPrefixOf (c :: t) || strIn needle t

/-- Number of matches of `re.findall(r'\d', text)`: count of digit
characters. -/
def countDigits (s : Str) : Nat := s.countP isDigitB

/-- The clutter-keyword vocabulary of `is_item_line` in `logic.py`. -/
def clutter_keywords : List Str :=
  [ofStr "store", ofStr "total", ofStr "due", ofStr "debit", ofStr "credit",
   ofStr "cash", ofStr "payment", ofStr "change", ofStr "balance",
   ofStr "date", ofStr "time", ofStr "vat", ofStr "tax", ofStr "thank you",
   ofStr "subtotal", ofStr "discount", ofStr "offer", ofStr "feedback",
   ofStr "survey", ofStr "prices", ofStr "network", ofStr "terminal",
   ofStr "ref", ofStr "aid", ofStr "appr code", ofStr "st#", ofStr "op#",
   ofStr "te#", ofStr "tr#", ofStr "tc#"]

/-- `any(keyword in text.lower() for keyword in clutter_keywords)`. -/
def hasClutter (text : Str) : Bool :=
  clutter_keywords.any (fun kw => strIn kw (lowerStr text))

/-- `len(re.findall(r'\d', text)) > len(text) * 0.6 or
re.search(r'[^\w\s.,]', text)` in `logic.py`.  The float comparison
`count > len * 0.6` is embedded exactly as the rational comparison
`10 * count > 6 * len`; for every list length the double `len * 0.6`
rounds to a value on the same side of every integer as the exact
product, so the two comparisons agree.  `46` and `44` are `.` and `,`. -/
def tooManyDigitsOrSymbols (text : Str) : Bool :=
  decide (10 * countDigits text > 6 * text.length) ||
    text.any (fun c => !(isWordB c || isSpaceB c || c == 46 || c == 44))

/-- `len(text) < 5 or len(text) > 50` in `logic.py`. -/
def badLength (text : Str) : Bool :=
  decide (text.length < 5) || decide (text.length > 50)

/-- `€` or `$`: the character class `[€$]` of the price regex. -/
def isCurrencyB (c : Nat) : Bool := c == 8364 || c == 36

/-- The suffix `\s*[€$]` of the price pattern, anchored at the start:
`[€$]` is not whitespace, so `\s*` must consume exactly the leading
whitespace run. -/
def currencyAfterSpaces (r : Str) : Bool :=
  match r.dropWhile isSpaceB with
  | [] => false
  | c :: _ => isCurrencyB c

/-- The optional group `(\.\d{2})?` followed by `\s*[€$]`, anchored at
the start: try consuming `.dd` and, failing that, match without it. -/
def optCentsThenCurrency (r : Str) : Bool :=
  (match r with
   | 46 :: d1 :: d2 :: t =>
     (isDigitB d1 && isDigitB d2 && currencyAfterSpaces t)
   | _ => false) || currencyAfterSpaces r

/-- A match of `\d+(\.\d{2})?\s*[€$]` anchored at the start of `s`.
No continuation of the pattern can consume a digit, so `\d+` must
consume the whole leading digit run. -/
def priceAtStart (s : Str) : Bool :=
  let ds := s.takeWhile isDigitB
  !ds.isEmpty && optCentsThenCurrency (s.drop ds.length)

/-- `re.search(r'\d+(\.\d{2})?\s*[€$]', text)`: the pattern matches at
some position of `text`. -/
def priceSearch : Str → Bool
  | [] => false
  | c :: t => priceAtStart (c :: t) || priceSearch t

/-- `is_item_line` from `logic.py` (lines 8–40): keyword exclusion, then
digit-density / symbol exclusion, then length bounds, then the
price-pattern rule, else accept. -/
def is_item_line (text : Str) : Bool :=
  if hasClutter text then false
  else if tooManyDigitsOrSymbols text then false
  else if badLength text then false
  else if priceSearch text then text.any isAlphaB
  else true

/-- Lexicographic order on Python strings (by code point, a proper
prefix sorting first), as used by `sorted`. -/
def strLeB : Str → Str → Bool
  | [], _ => true
  | _ :: _, [] => false
  | a :: as, b :: bs =>
    if a < b then true else if b < a then false else strLeB as bs

/-- `strLeB` as a relation, for `List.insertionSort`. -/
def strLe (a b : Str) : Prop := strLeB a b = true

instance : DecidableRel strLe := fun a b => instDecidableEqBool (strLeB a b) true

/-- `clean_extracted_items` from `logic.py` (lines 44–45):
`sorted(set(item.strip().capitalize() for item in items if item.strip()))`.
`set(...)` keeps the distinct values (`dedup`); `sorted` arranges them in
ascending string order, which on distinct values is the unique sorted
arrangement. -/
def clean_extracted_items (items : List Str) : List Str :=
  List.insertionSort strLe
    (((items.filter (fun i => !(strip i).isEmpty)).map
      (fun i => capitalize (strip i))).dedup)

/-- The canonical key of an item string: its lowercased,
whitespace-trimmed form (`item.strip().lower()`). -/
def canonKey (s : Str) : Str := lowerStr (strip s)

/-- The loop body of `clean_extracted_items` from `test.py` (lines
40–57): `seen` is the set of canonical keys already emitted; an unseen
key is recorded and its `capitalize`d form appended. -/
def cleanAux (seen : List Str) : List Str → List Str
  | [] => []
  | item :: rest =>
    if canonKey item ∈ seen then cleanAux seen rest
    else capitalize (canonKey item) :: cleanAux (canonKey item :: seen) rest

/-- `clean_extracted_items` from `test.py`: first-seen order, key
`item.strip().lower()`, emitted form `key.capitalize()`. -/
def clean_extracted_items_v2 (items : List Str) : List Str := cleanAux [] items

/-- The bottle vocabulary of `calculate_pfand` in `logic.py`. -/
def bottle_keywords : List Str :=
  [ofStr "coca cola", ofStr "pepsi", ofStr "dasani", ofStr "bottle",
   ofStr "sprite", ofStr "fanta", ofStr "evian", ofStr "volvic",
   ofStr "nestle", ofStr "mineral water", ofStr "glass bottle",
   ofStr "plastic bottle"]

/-- `any(keyword in item.lower() for keyword in bottle_keywords)`. -/
def isBottle (item : Str) : Bool :=
  bottle_keywords.any (fun kw => strIn kw (lowerStr item))

/-- Python `round(x, 2)` on the values this program produces: scale by
100, round to an integer, scale back.  Every value rounded here is an
exact integer multiple of `0.25`, so the scaled value is an integer and
every tie-breaking convention (Python's round-half-to-even included)
agrees with `round`. -/
def round2 (q : ℚ) : ℚ := (round (q * 100) : ℚ) / 100

/-- `calculate_pfand` from `logic.py` (lines 72–79): count the items
containing a bottle keyword, multiply by `0.25`, round to 2 decimals. -/
def calculate_pfand (items : List Str) : ℚ :=
  round2 ((items.countP isBottle : ℚ) * (0.25 : ℚ))

/-- The composition used by `process_receipt` / `process_and_display` in
`logic.py`: classify each OCR line, strip the accepted ones, normalize,
and compute the deposit on the normalized list. -/
def pipeline (lines : List Str) : List Str × ℚ :=
  let items := clean_extracted_items ((lines.filter is_item_line).map strip)
  (items, calculate_pfand items)

/-- Modelled from the spec (claim C7's wording): re-capitalization that
uppercases the first character and leaves the remaining characters
unchanged.  This is what the spec says the normalizer does to the kept
surface form; it is compared against the source's `capitalize`. -/
def specCapFirstOnly : Str → Str
  | [] => []
  | c :: t => toUpperB c :: t

/-! ### Pointwise facts about the character operations -/

theorem toLowerB_toUpperB (c : Nat) : toLowerB (toUpperB c) = toLowerB c := by
  simp only [toLowerB, toUpperB]; split_ifs <;> omega

theorem toUpperB_toLowerB (c : Nat) : toUpperB (toLowerB c) = toUpperB c := by
  simp only [toLowerB, toUpperB]; split_ifs <;> omega

theorem toLowerB_toLowerB (c : Nat) : toLowerB (toLowerB c) = toLowerB c := by
  simp only [toLowerB]; split_ifs <;> omega

theorem toUpperB_toUpperB (c : Nat) : toUpperB (toUpperB c) = toUpperB c := by
  simp only [toUpperB]; split_ifs <;> omega

theorem isSpaceB_toLowerB (c : Nat) : isSpaceB (toLowerB c) = isSpaceB c := by
  simp only [isSpaceB, toLowerB]
  split_ifs with h
  · exact decide_eq_decide.mpr (by omega)
  · rfl

theorem isSpaceB_toUpperB (c : Nat) : isSpaceB (toUpperB c) = isSpaceB c := by
  simp only [isSpaceB, toUpperB]
  split_ifs with h
  · exact decide_eq_decide.mpr (by omega)
  · rfl

/-! ### Facts about `lowerStr`, `capitalize` and `strip` -/

theorem lowerStr_lowerStr (s : Str) : lowerStr (lowerStr s) = lowerStr s := by
  simp only [lowerStr, List.map_map]
  exact List.map_congr_left (fun a _ => toLowerB_toLowerB a)

theorem capitalize_capitalize (s : Str) : capitalize (capitalize s) = capitalize s := by
  cases s with
  | nil => rfl
  | cons c t =>
    simp only [capitalize, toUpperB_toUpperB, List.map_map, List.cons.injEq, true_and]
    exact List.map_congr_left (fun a _ => toLowerB_toLowerB a)

theorem capitalize_lowerStr (s : Str) : capitalize (lowerStr s) = capitalize s := by
  cases s with
  | nil => rfl
  | cons c t =>
    simp only [capitalize, lowerStr, List.map_cons, toUpperB_toLowerB, List.map_map,
      List.cons.injEq, true_and]
    exact List.map_congr_left (fun a _ => toLowerB_toLowerB a)

theorem lowerStr_capitalize (s : Str) : lowerStr (capitalize s) = lowerStr s := by
  cases s with
  | nil => rfl
  | cons c t =>
    simp only [capitalize, lowerStr, List.map_cons, toLowerB_toUpperB, List.map_map,
      List.cons.injEq, true_and]
    exact List.map_congr_left (fun a _ => toLowerB_toLowerB a)

theorem strip_nil : strip [] = [] := rfl

/-- The stripped string is a prefix of the string with its leading
whitespace removed. -/
theorem strip_isPrefix (s : Str) : strip s <+: s.dropWhile isSpaceB := by
  have h1 : (s.dropWhile isSpaceB).reverse.dropWhile isSpaceB <:+
      (s.dropWhile isSpaceB).reverse := List.dropWhile_suffix _
  rw [show (s.dropWhile isSpaceB).reverse.dropWhile isSpaceB =
      ((s.dropWhile isSpaceB).reverse.dropWhile isSpaceB).reverse.reverse by
    simp] at h1
  exact (List.reverse_suffix).mp h1

/-- The first element surviving `dropWhile p` does not satisfy `p`. -/
theorem dropWhile_head?_false {p : Nat → Bool} {l : List Nat} {x : Nat}
    (hx : (l.dropWhile p).head? = some x) : p x = false := by
  have h := List.head?_dropWhile_not p l
  rw [hx] at h
  exact h

theorem strip_head?_not_space (s : Str) {x : Nat}
    (hx : (strip s).head? = some x) : isSpaceB x = false := by
  obtain ⟨t, ht⟩ := strip_isPrefix s
  apply dropWhile_head?_false (l := s) (p := isSpaceB)
  rw [← ht, List.head?_append, hx]
  rfl

theorem strip_getLast?_not_space (s : Str) {x : Nat}
    (hx : (strip s).getLast? = some x) : isSpaceB x = false := by
  have hx2 : ((s.dropWhile isSpaceB).reverse.dropWhile isSpaceB).head? = some x := by
    rw [← List.getLast?_reverse]
    exact hx
  exact dropWhile_head?_false hx2

/-- A string whose first and last characters are not whitespace is fixed
by `strip`. -/
theorem strip_eq_self_of_ends (s : Str)
    (hhead : ∀ x, s.head? = some x → isSpaceB x = false)
    (hlast : ∀ x, s.getLast? = some x → isSpaceB x = false) : strip s = s := by
  have h1 : s.dropWhile isSpaceB = s := by
    cases s with
    | nil => rfl
    | cons c t =>
      have := hhead c rfl
      simp [List.dropWhile_cons, this]
  have h2 : s.reverse.dropWhile isSpaceB = s.reverse := by
    cases hr : s.reverse with
    | nil => rfl
    | cons d r =>
      have hd : s.getLast? = some d := by
        rw [← List.head?_reverse, hr]; rfl
      have := hlast d hd
      simp [List.dropWhile_cons, this]
  unfold strip
  rw [h1, h2, List.reverse_reverse]

theorem strip_idem (s : Str) : strip (strip s) = strip s :=
  strip_eq_self_of_ends _ (fun _ hx => strip_head?_not_space s hx)
    (fun _ hx => strip_getLast?_not_space s hx)

/-- `strip` commutes with lowercasing. -/
theorem strip_lowerStr (s : Str) : strip (lowerStr s) = lowerStr (strip s) := by
  unfold strip lowerStr
  rw [List.dropWhile_map, show (isSpaceB ∘ toLowerB) = isSpaceB from funext isSpaceB_toLowerB,
    ← List.map_reverse, List.dropWhile_map,
    show (isSpaceB ∘ toLowerB) = isSpaceB from funext isSpaceB_toLowerB, ← List.map_reverse]

/-- Capitalizing a stripped string leaves it stripped. -/
theorem strip_capitalize_strip (c : Str) :
    strip (capitalize (strip c)) = capitalize (strip c) := by
  cases hu : strip c with
  | nil => rfl
  | cons x t =>
    apply strip_eq_self_of_ends
    · intro z hz
      simp only [capitalize, List.head?_cons, Option.some.injEq] at hz
      have hx : isSpaceB x = false :=
        strip_head?_not_space c (by rw [hu]; rfl)
      rw [← hz, isSpaceB_toUpperB]
      exact hx
    · intro z hz
      cases t with
      | nil =>
        simp only [capitalize, List.map_nil, List.getLast?_singleton,
          Option.some.injEq] at hz
        have hx : isSpaceB x = false :=
          strip_head?_not_space c (by rw [hu]; rfl)
        rw [← hz, isSpaceB_toUpperB]
        exact hx
      | cons y r =>
        have h1 : (capitalize (x :: y :: r)).getLast? =
            ((y :: r).getLast?).map toLowerB := by
          show (toUpperB x :: toLowerB y :: List.map toLowerB r).getLast? = _
          rw [List.getLast?_cons_cons]
          show (List.map toLowerB (y :: r)).getLast? = _
          rw [List.getLast?_map]
        obtain ⟨w, hw⟩ : ∃ w, (y :: r).getLast? = some w := by
          cases hg : (y :: r).getLast? with
          | none =>
            exfalso
            have := (List.getLast?_isSome (l := y :: r)).mpr (by simp)
            rw [hg] at this
            exact Bool.false_ne_true this
          | some w => exact ⟨w, rfl⟩
        rw [h1, hw] at hz
        simp only [Option.map_some', Option.some.injEq] at hz
        have hwlast : (strip c).getLast? = some w := by
          rw [hu, List.getLast?_cons_cons, hw]
        have := strip_getLast?_not_space c hwlast
        rw [← hz, isSpaceB_toLowerB]
        exact this

/-! ### Facts about the canonical key -/

theorem strip_canonKey (s : Str) : strip (canonKey s) = canonKey s := by
  unfold canonKey
  rw [strip_lowerStr, strip_idem]

theorem lowerStr_canonKey (s : Str) : lowerStr (canonKey s) = canonKey s := by
  unfold canonKey
  rw [lowerStr_lowerStr]

theorem canonKey_capitalize_canonKey (s : Str) :
    canonKey (capitalize (canonKey s)) = canonKey s := by
  have h1 : strip (capitalize (canonKey s)) = capitalize (canonKey s) := by
    have := strip_capitalize_strip (canonKey s)
    rwa [strip_canonKey] at this
  show lowerStr (strip (capitalize (canonKey s))) = canonKey s
  rw [h1, lowerStr_capitalize, lowerStr_canonKey]

theorem canonKey_capitalize_strip (c : Str) :
    canonKey (capitalize (strip c)) = canonKey c := by
  show lowerStr (strip (capitalize (strip c))) = canonKey c
  rw [strip_capitalize_strip, lowerStr_capitalize]
  rfl

theorem capitalize_canonKey_eq_capitalize_strip (c : Str) :
    capitalize (canonKey c) = capitalize (strip c) := capitalize_lowerStr _

/-! ### The string order used by `sorted` -/

theorem strLeB_cons_iff {x y : Nat} {xs ys : Str} :
    strLeB (x :: xs) (y :: ys) = true ↔ x < y ∨ (x = y ∧ strLeB xs ys = true) := by
  simp only [strLeB]
  split_ifs with h h'
  · simp [h]
  · constructor
    · intro hc; exact absurd hc (by simp)
    · rintro (hc | ⟨rfl, _⟩) <;> omega
  · constructor
    · intro hr; exact Or.inr ⟨by omega, hr⟩
    · rintro (hc | ⟨rfl, hr⟩)
      · omega
      · exact hr

theorem strLeB_total (a : Str) : ∀ b, strLeB a b = true ∨ strLeB b a = true := by
  induction a with
  | nil => intro b; exact Or.inl rfl
  | cons x xs ih =>
    intro b
    cases b with
    | nil => exact Or.inr rfl
    | cons y ys =>
      rcases Nat.lt_trichotomy x y with h | h | h
      · exact Or.inl (strLeB_cons_iff.mpr (Or.inl h))
      · rcases ih ys with h' | h'
        · exact Or.inl (strLeB_cons_iff.mpr (Or.inr ⟨h, h'⟩))
        · exact Or.inr (strLeB_cons_iff.mpr (Or.inr ⟨h.symm, h'⟩))
      · exact Or.inr (strLeB_cons_iff.mpr (Or.inl h))

theorem strLeB_trans (a : Str) :
    ∀ b c, strLeB a b = true → strLeB b c = true → strLeB a c = true := by
  induction a with
  | nil => intro b c _ _; rfl
  | cons x xs ih =>
    intro b c h1 h2
    cases b with
    | nil => exact absurd h1 (by simp [strLeB])
    | cons y ys =>
      cases c with
      | nil => exact absurd h2 (by simp [strLeB])
      | cons z zs =>
        rcases strLeB_cons_iff.mp h1 with hxy | ⟨rfl, hxy⟩ <;>
          rcases strLeB_cons_iff.mp h2 with hyz | ⟨rfl, hyz⟩
        · exact strLeB_cons_iff.mpr (Or.inl (Nat.lt_trans hxy hyz))
        · exact strLeB_cons_iff.mpr (Or.inl hxy)
        · exact strLeB_cons_iff.mpr (Or.inl hyz)
        · exact strLeB_cons_iff.mpr (Or.inr ⟨rfl, ih ys zs hxy hyz⟩)

instance : IsTotal Str strLe := ⟨fun a b => strLeB_total a b⟩

instance : IsTrans Str strLe := ⟨fun a b c => strLeB_trans a b c⟩

/-! ### Structure of `clean_extracted_items` (the `logic.py` variant) -/

theorem mem_clean {items : List Str} {e : Str} :
    e ∈ clean_extracted_items items ↔
      ∃ c ∈ items, strip c ≠ [] ∧ e = capitalize (strip c) := by
  unfold clean_extracted_items
  rw [(List.perm_insertionSort strLe _).mem_iff, List.mem_dedup, List.mem_map]
  constructor
  · rintro ⟨c, hc, rfl⟩
    rw [List.mem_filter] at hc
    exact ⟨c, hc.1, by simpa using hc.2, rfl⟩
  · rintro ⟨c, hc, hne, rfl⟩
    exact ⟨c, List.mem_filter.mpr ⟨hc, by simpa using hne⟩, rfl⟩

theorem clean_entry_ne_nil {items : List Str} {e : Str}
    (he : e ∈ clean_extracted_items items) : e ≠ [] := by
  obtain ⟨c, _, hne, rfl⟩ := mem_clean.mp he
  cases h : strip c with
  | nil => exact absurd h hne
  | cons x t => simp [capitalize]

theorem clean_entry_strip {items : List Str} {e : Str}
    (he : e ∈ clean_extracted_items items) : strip e = e := by
  obtain ⟨c, _, _, rfl⟩ := mem_clean.mp he
  exact strip_capitalize_strip c

theorem clean_entry_capitalize {items : List Str} {e : Str}
    (he : e ∈ clean_extracted_items items) : capitalize e = e := by
  obtain ⟨c, _, _, rfl⟩ := mem_clean.mp he
  exact capitalize_capitalize _

/-- Every entry of the cleaned list is recovered from its own canonical
key by capitalizing: the key determines the surface form. -/
theorem clean_entry_key {items : List Str} {e : Str}
    (he : e ∈ clean_extracted_items items) : capitalize (canonKey e) = e := by
  obtain ⟨c, _, _, rfl⟩ := mem_clean.mp he
  rw [canonKey_capitalize_strip, capitalize_canonKey_eq_capitalize_strip]

theorem nodup_clean (items : List Str) : (clean_extracted_items items).Nodup :=
  (List.perm_insertionSort strLe _).symm.nodup (List.nodup_dedup _)

theorem sorted_clean (items : List Str) :
    List.Sorted strLe (clean_extracted_items items) :=
  List.sorted_insertionSort strLe _

/-! ### Structure of `clean_extracted_items_v2` (the `test.py` variant) -/

theorem mem_cleanAux : ∀ {l seen : List Str} {e : Str} (_ : e ∈ cleanAux seen l),
    ∃ c ∈ l, e = capitalize (canonKey c)
  | [], _, _, he => by simp [cleanAux] at he
  | item :: rest, seen, e, he => by
    by_cases hmem : canonKey item ∈ seen
    · simp only [cleanAux, if_pos hmem] at he
      obtain ⟨c, hc, hce⟩ := mem_cleanAux he
      exact ⟨c, List.mem_cons_of_mem _ hc, hce⟩
    · simp only [cleanAux, if_neg hmem] at he
      rcases List.mem_cons.mp he with rfl | he'
      · exact ⟨item, List.mem_cons_self _ _, rfl⟩
      · obtain ⟨c, hc, hce⟩ := mem_cleanAux he'
        exact ⟨c, List.mem_cons_of_mem _ hc, hce⟩

theorem cleanAux_entry_key {l seen : List Str} {e : Str} (he : e ∈ cleanAux seen l) :
    capitalize (canonKey e) = e := by
  obtain ⟨c, _, rfl⟩ := mem_cleanAux he
  rw [canonKey_capitalize_canonKey]

/-- The canonical keys of the emitted entries are distinct and disjoint
from the keys already seen. -/
theorem cleanAux_keys : ∀ (l seen : List Str),
    ((cleanAux seen l).map canonKey).Nodup ∧
      ∀ k ∈ (cleanAux seen l).map canonKey, k ∉ seen
  | [], seen => ⟨List.nodup_nil, by simp [cleanAux]⟩
  | item :: rest, seen => by
    by_cases hmem : canonKey item ∈ seen
    · simp only [cleanAux, if_pos hmem]
      exact cleanAux_keys rest seen
    · simp only [cleanAux, if_neg hmem, List.map_cons, canonKey_capitalize_canonKey]
      obtain ⟨h1, h2⟩ := cleanAux_keys rest (canonKey item :: seen)
      refine ⟨List.nodup_cons.mpr ⟨fun hk => ?_, h1⟩, ?_⟩
      · exact (h2 _ hk) (List.mem_cons_self _ _)
      · intro k hk
        rcases List.mem_cons.mp hk with rfl | hk'
        · exact hmem
        · exact fun hs => (h2 k hk') (List.mem_cons_of_mem _ hs)

/-- A list of entries whose keys are distinct, emitted forms fixed, and
keys unseen, passes through `cleanAux` unchanged. -/
theorem cleanAux_fixed : ∀ (l seen : List Str),
    (l.map canonKey).Nodup → (∀ e ∈ l, capitalize (canonKey e) = e) →
      (∀ k ∈ l.map canonKey, k ∉ seen) → cleanAux seen l = l
  | [], _, _, _, _ => rfl
  | e :: rest, seen, hnd, hfix, hdis => by
    have hmem : canonKey e ∉ seen :=
      hdis _ (by simp)
    simp only [cleanAux, if_neg hmem]
    rw [hfix e (List.mem_cons_self _ _)]
    congr 1
    refine cleanAux_fixed rest (canonKey e :: seen)
      ((List.nodup_cons.mp (by simpa using hnd)).2)
      (fun x hx => hfix x (List.mem_cons_of_mem _ hx)) ?_
    intro k hk
    intro hks
    rcases List.mem_cons.mp hks with rfl | hks'
    · exact (List.nodup_cons.mp (by simpa using hnd)).1 hk
    · exact (hdis k (by simpa using Or.inr hk)) hks'

/-! ### The deposit amount -/

/-- `round(bottle_count * 0.25, 2)` is exactly `bottle_count * 0.25`:
the scaled value is the integer `25 * bottle_count`. -/
theorem calculate_pfand_eq (items : List Str) :
    calculate_pfand items = (items.countP isBottle : ℚ) * (0.25 : ℚ) := by
  unfold calculate_pfand round2
  have h : ((items.countP isBottle : ℚ) * (0.25 : ℚ) * 100) =
      ((25 * items.countP isBottle : ℕ) : ℚ) := by
    push_cast
    ring
  rw [h, round_natCast]
  push_cast
  ring

/-! ### The claims -/

/-- C1: on the spec's sample raw lines, the composed `logic.py` pipeline
(`is_item_line`, then `strip`, then `clean_extracted_items`, then
`calculate_pfand`) yields the items `["Bread"]` and the deposit `0`:
the `Coca Cola 0.5L 1.20€` line is rejected by the symbol-exclusion
check (`€` is outside `[\w\s.,]`), so — contrary to the claim — it never
reaches the normalized list and no `0.25` deposit is counted. -/
theorem C1_pipeline_on_sample :
    pipeline [ofStr "STORE XYZ", ofStr "Milk 2%  1.99€", ofStr "Bread",
        ofStr "Coca Cola 0.5L 1.20€", ofStr "TOTAL 3.19€", ofStr "THANK YOU"] =
      ([ofStr "Bread"], 0) := by
  have h : clean_extracted_items
      (([ofStr "STORE XYZ", ofStr "Milk 2%  1.99€", ofStr "Bread",
        ofStr "Coca Cola 0.5L 1.20€", ofStr "TOTAL 3.19€",
        ofStr "THANK YOU"].filter is_item_line).map strip) = [ofStr "Bread"] := by
    decide
  show (_, calculate_pfand _) = _
  rw [h, calculate_pfand_eq]
  have hc : List.countP isBottle [ofStr "Bread"] = 0 := by decide
  rw [hc]
  norm_num

/-- C2: the line `"Milk 3.50€"` matches the price pattern and contains
alphabetic characters, yet `is_item_line` returns `false` — the
symbol-exclusion check rejects the `€` before the price-pattern branch
is evaluated — and a bare price `"3.50€"` is also rejected.  The last
two conjuncts record that the price-pattern branch itself would have
accepted the line had it been reached. -/
theorem C2_price_description_rejected :
    is_item_line (ofStr "Milk 3.50€") = false ∧
    is_item_line (ofStr "3.50€") = false ∧
    priceSearch (ofStr "Milk 3.50€") = true ∧
    (ofStr "Milk 3.50€").any isAlphaB = true := by decide

/-- C3: every string containing `€` (U+20AC) or `$` is rejected by
`is_item_line`: either the clutter-keyword check fires, or the currency
sign falls outside `[\w\s.,]` and the symbol-exclusion check fires, so
the price-pattern accept branch can never return `true`. -/
theorem C3_currency_always_rejected (s : Str)
    (h : Char.toNat '€' ∈ s ∨ Char.toNat '$' ∈ s) : is_item_line s = false := by
  unfold is_item_line
  by_cases h1 : hasClutter s
  · simp [h1]
  · have h2 : tooManyDigitsOrSymbols s = true := by
      simp only [tooManyDigitsOrSymbols, Bool.or_eq_true]
      refine Or.inr (List.any_eq_true.mpr ?_)
      rcases h with hc | hc
      · exact ⟨_, hc, by decide⟩
      · exact ⟨_, hc, by decide⟩
    simp [h1, h2]

/-- Witness for C3 at the concrete bare price `"0.99€"`. -/
theorem C3_currency_always_rejected_witness :
    is_item_line (ofStr "0.99€") = false :=
  C3_currency_always_rejected (ofStr "0.99€") (Or.inl (by decide))

/-- C4: any string whose lowercased form contains one of the thirty
clutter keywords as a substring is rejected by `is_item_line`. -/
theorem C4_clutter_keyword_rejected (s kw : Str)
    (hkw : kw ∈ clutter_keywords) (hin : strIn kw (lowerStr s) = true) :
    is_item_line s = false := by
  unfold is_item_line
  have h1 : hasClutter s = true :=
    List.any_eq_true.mpr ⟨kw, hkw, hin⟩
  simp [h1]

/-- Witness for C4: `"STORE XYZ"` contains the keyword `"store"`. -/
theorem C4_clutter_keyword_rejected_witness :
    is_item_line (ofStr "STORE XYZ") = false :=
  C4_clutter_keyword_rejected (ofStr "STORE XYZ") (ofStr "store")
    (by decide) (by decide)

/-- C5: a string whose digit count exceeds 60% of its length (full
length, spaces and punctuation included, as denominator), or whose
length is below 5 or above 50, is rejected by `is_item_line`. -/
theorem C5_density_and_length_rejected (s : Str)
    (h : 10 * countDigits s > 6 * s.length ∨ s.length < 5 ∨ s.length > 50) :
    is_item_line s = false := by
  unfold is_item_line
  by_cases h1 : hasClutter s
  · simp [h1]
  · rcases h with hd | hl
    · have h2 : tooManyDigitsOrSymbols s = true := by
        simp only [tooManyDigitsOrSymbols, Bool.or_eq_true, decide_eq_true_eq]
        exact Or.inl hd
      simp [h1, h2]
    · by_cases h2 : tooManyDigitsOrSymbols s
      · simp [h1, h2]
      · have h3 : badLength s = true := by
          simp only [badLength, Bool.or_eq_true, decide_eq_true_eq]
          exact hl
        simp [h1, h2, h3]

/-- Witness for C5 at `"9998"`: four digits in four characters exceeds
the 60% bound, and the length is below 5. -/
theorem C5_density_and_length_rejected_witness :
    is_item_line (ofStr "9998") = false :=
  C5_density_and_length_rejected (ofStr "9998") (by decide)

/-- C6: in both normalizer variants no two output entries share a
canonical key (lowercased, whitespace-trimmed form), and
`["milk", "Milk", " MILK "]` normalizes to the single entry `"Milk"`. -/
theorem C6_dedup_invariant :
    (∀ items : List Str, (clean_extracted_items items).Pairwise
        (fun a b => canonKey a ≠ canonKey b)) ∧
    (∀ items : List Str, (clean_extracted_items_v2 items).Pairwise
        (fun a b => canonKey a ≠ canonKey b)) ∧
    clean_extracted_items [ofStr "milk", ofStr "Milk", ofStr " MILK "] =
      [ofStr "Milk"] ∧
    clean_extracted_items_v2 [ofStr "milk", ofStr "Milk", ofStr " MILK "] =
      [ofStr "Milk"] := by
  refine ⟨?_, ?_, by decide, by decide⟩
  · intro items
    refine List.Pairwise.imp_of_mem ?_ (nodup_clean items)
    intro a b ha hb hne hkey
    exact hne (by rw [← clean_entry_key ha, ← clean_entry_key hb, hkey])
  · intro items
    have h : ((cleanAux [] items).map canonKey).Pairwise (· ≠ ·) :=
      (cleanAux_keys items []).1
    exact List.pairwise_map.mp h

/-- C7 counterexample: on input `["COCA COLA"]` the `logic.py`
normalizer emits `"Coca cola"`, not the first-seen surface form with
only its first character uppercased and the remainder unchanged
(`specCapFirstOnly`), because `capitalize` also lowercases the tail. -/
theorem C7_surface_form_counterexample :
    clean_extracted_items [ofStr "COCA COLA"] = [ofStr "Coca cola"] ∧
    ofStr "Coca cola" ≠ specCapFirstOnly (ofStr "COCA COLA") := by decide

/-- C7 amended: every output entry of either normalizer variant is the
trimmed form of some input candidate with the first character uppercased
and the remaining characters lowercased (Python `str.capitalize`). -/
theorem C7_surface_form_amended :
    (∀ (items : List Str) (e : Str), e ∈ clean_extracted_items items →
      ∃ c ∈ items, strip c ≠ [] ∧ e = capitalize (strip c)) ∧
    (∀ (items : List Str) (e : Str), e ∈ clean_extracted_items_v2 items →
      ∃ c ∈ items, e = capitalize (strip c)) := by
  constructor
  · intro items e he
    exact mem_clean.mp he
  · intro items e he
    obtain ⟨c, hc, rfl⟩ := mem_cleanAux he
    exact ⟨c, hc, capitalize_canonKey_eq_capitalize_strip c⟩

/-- Witness for C7 amended, at the concrete input `["COCA COLA"]` and
its output entry `"Coca cola"`. -/
theorem C7_surface_form_amended_witness :
    ∃ c ∈ [ofStr "COCA COLA"], strip c ≠ [] ∧
      ofStr "Coca cola" = capitalize (strip c) :=
  C7_surface_form_amended.1 [ofStr "COCA COLA"] (ofStr "Coca cola") (by decide)

/-- C8: `calculate_pfand` returns the number of items containing a
bottle keyword (case-insensitive substring) times `0.25` — the 2-decimal
rounding is the identity on these quarter multiples — it is never
negative, the empty list yields `0`, and the spec's three-item example
yields `0.5`. -/
theorem C8_deposit_formula :
    (∀ items : List Str,
        calculate_pfand items = (items.countP isBottle : ℚ) * (0.25 : ℚ) ∧
        0 ≤ calculate_pfand items) ∧
    calculate_pfand [] = 0 ∧
    calculate_pfand [ofStr "Coca cola 500ml", ofStr "Bread",
      ofStr "Pepsi bottle"] = (0.5 : ℚ) := by
  refine ⟨fun items => ⟨calculate_pfand_eq items, ?_⟩, ?_, ?_⟩
  · rw [calculate_pfand_eq]
    positivity
  · rw [calculate_pfand_eq, List.countP_nil]
    norm_num
  · rw [calculate_pfand_eq]
    have hc : List.countP isBottle [ofStr "Coca cola 500ml", ofStr "Bread",
        ofStr "Pepsi bottle"] = 2 := by decide
    rw [hc]
    norm_num

/-- C9: both normalizer variants are idempotent. -/
theorem C9_normalize_idempotent (x : List Str) :
    clean_extracted_items (clean_extracted_items x) = clean_extracted_items x ∧
    clean_extracted_items_v2 (clean_extracted_items_v2 x) =
      clean_extracted_items_v2 x := by
  constructor
  · have hfil : (clean_extracted_items x).filter (fun i => !(strip i).isEmpty) =
        clean_extracted_items x :=
      List.filter_eq_self.mpr (fun e he => by
        rw [clean_entry_strip he]
        simpa using clean_entry_ne_nil he)
    have hmap : (clean_extracted_items x).map (fun i => capitalize (strip i)) =
        clean_extracted_items x := by
      have h := List.map_congr_left (l := clean_extracted_items x)
        (f := fun i => capitalize (strip i)) (g := id)
        (fun e he => by
          show capitalize (strip e) = id e
          rw [clean_entry_strip he, clean_entry_capitalize he]
          rfl)
      rwa [List.map_id] at h
    show List.insertionSort strLe
        (((clean_extracted_items x).filter (fun i => !(strip i).isEmpty)).map
          (fun i => capitalize (strip i))).dedup = clean_extracted_items x
    rw [hfil, hmap, List.dedup_eq_self.mpr (nodup_clean x),
      (sorted_clean x).insertionSort_eq]
  · show cleanAux [] (clean_extracted_items_v2 x) = clean_extracted_items_v2 x
    exact cleanAux_fixed _ [] (cleanAux_keys x []).1
      (fun e he => cleanAux_entry_key he) (by simp)

/-- C10 counterexample: on input `["Zebra", "_foo"]` the `logic.py`
normalizer returns `["Zebra", "_foo"]` (`Z` = 90 sorts before `_` = 95),
whose canonical keys `"zebra"`, `"_foo"` are NOT in ascending order
(`z` = 122 > `_` = 95): the output is not sorted by canonical key. -/
theorem C10_key_order_counterexample :
    ¬ (clean_extracted_items [ofStr "Zebra", ofStr "_foo"]).Pairwise
        (fun a b => strLeB (canonKey a) (canonKey b) = true) := by decide

/-- C10 amended: the `logic.py` normalizer output is sorted ascending in
the lexicographic order of the entries themselves (the capitalized
surface forms); this coincides with canonical-key order only when case
folding preserves the order of the leading characters. -/
theorem C10_sorted_by_surface_form (items : List Str) :
    List.Sorted strLe (clean_extracted_items items) :=
  sorted_clean items

end Receipt
